import Mathlib

/-!
# Verification of `ui/utils/sort.ts`

A shallow embedding of the sorting/filtering utility module (`typeOf`,
`compare`, `parseField`, `sortBy`, `sortableNumericSuffix`, `search`)
together with proofs about the embedded definitions.

JavaScript runtime values are modelled by the inductive type `Value`;
JavaScript numbers (IEEE doubles) are modelled by `JsNum`, an integer
together with the special values `NaN`, `Infinity` and `-Infinity`
(none of the code performs arithmetic on field values beyond the
subtraction used for sign tests, so integral inputs exercise every
sign the code can observe).  Code that can throw is embedded in
`Except String`.

The external collaborators `get` (from `./object`) and `strPad` (from
`./string`) are not part of the visible sources and are modelled from
their documented interface; each carries a doc comment saying so.
-/

namespace SortTs

/-- Model of a JavaScript number: a finite value, or one of the special
IEEE values `NaN`, `Infinity`, `-Infinity`.  Finite values are modelled
as integers: the module performs no arithmetic on field values beyond
the subtraction used for sign tests, so integer inputs exercise every
sign the code can observe and no claim distinguishes fractional
inputs. -/
inductive JsNum where
  | fin (i : ℤ)
  | nan
  | inf
  | ninf
deriving DecidableEq

/-- JavaScript subtraction `a - b` on numbers (any operand being `NaN`
gives `NaN`; `Infinity - Infinity` is `NaN`, etc.). -/
def JsNum.sub : JsNum → JsNum → JsNum
  | .fin a, .fin b => .fin (a - b)
  | .fin _, .inf => .ninf
  | .fin _, .ninf => .inf
  | .inf, .fin _ => .inf
  | .inf, .ninf => .inf
  | .ninf, .fin _ => .ninf
  | .ninf, .inf => .ninf
  | _, _ => .nan

/-- JavaScript `x > 0` (false for `NaN`). -/
def JsNum.gtZero : JsNum → Bool
  | .fin i => i > 0
  | .inf => true
  | _ => false

/-- JavaScript `x < 0` (false for `NaN`). -/
def JsNum.ltZero : JsNum → Bool
  | .fin i => i < 0
  | .ninf => true
  | _ => false

/-- Embedding of `spaceship(a, b)` from the source:
`const diff = a - b; return (diff > 0 ? 1 : 0) - (diff < 0 ? 1 : 0)`. -/
def spaceship (a b : JsNum) : Int :=
  (if (a.sub b).gtZero then 1 else 0) - (if (a.sub b).ltZero then 1 else 0)

/-- Model of a JavaScript runtime value, covering every shape the
module's callers can supply: primitives, arrays, plain objects
(association lists of string keys), `Date` (its stored time value),
`RegExp` and `Error`.  (`Function` and `FileList` values are not
representable; no claim involves them.) -/
inductive Value where
  | vundefined
  | vnull
  | vbool (b : Bool)
  | vnum (n : JsNum)
  | vstr (s : String)
  | varr (elems : List Value)
  | vobj (fields : List (String × Value))
  | vdate (time : JsNum)
  | vregexp (source : String)
  | verror (message : String)

/-- Model of `Object.prototype.toString.call(item)`, the engine-level
object tag used by `typeOf` via `TYPE_MAP`. -/
def objectTag : Value → String
  | .vundefined => "[object Undefined]"
  | .vnull => "[object Null]"
  | .vbool _ => "[object Boolean]"
  | .vnum _ => "[object Number]"
  | .vstr _ => "[object String]"
  | .varr _ => "[object Array]"
  | .vobj _ => "[object Object]"
  | .vdate _ => "[object Date]"
  | .vregexp _ => "[object RegExp]"
  | .verror _ => "[object Error]"

/-- Embedding of the `TYPE_MAP` constant: tag string to type name;
a lookup miss is `none` (JS property access yielding `undefined`). -/
def TYPE_MAP : String → Option String
  | "[object Boolean]" => some "boolean"
  | "[object Number]" => some "number"
  | "[object String]" => some "string"
  | "[object Function]" => some "function"
  | "[object Array]" => some "array"
  | "[object Date]" => some "date"
  | "[object RegExp]" => some "regexp"
  | "[object Object]" => some "object"
  | "[object FileList]" => some "filelist"
  | _ => none

/-- Model of `item instanceof Error`. -/
def isErrorInstance : Value → Bool
  | .verror _ => true
  | _ => false

/-- Model of `item instanceof Date`. -/
def isDateInstance : Value → Bool
  | .vdate _ => true
  | _ => false

/-- Embedding of `typeOf(item)`: `null`/`undefined` first, then the
`TYPE_MAP` lookup defaulting to `'object'` (`|| 'object'`), then the
`instanceof Error` / `instanceof Date` refinement of `'object'`. -/
def typeOf (item : Value) : String :=
  match item with
  | .vnull => "null"
  | .vundefined => "undefined"
  | _ =>
    let ret := (TYPE_MAP (objectTag item)).getD "object"
    if ret = "object" then
      if isErrorInstance item then "error"
      else if isDateInstance item then "date"
      else "object"
    else ret

/-- Embedding of the `TYPE_ORDER` constant; a lookup miss is `none`. -/
def TYPE_ORDER : String → Option Nat
  | "undefined" => some 0
  | "null" => some 1
  | "boolean" => some 2
  | "number" => some 3
  | "string" => some 4
  | "array" => some 5
  | "object" => some 6
  | "instance" => some 7
  | "function" => some 8
  | "class" => some 9
  | "date" => some 10
  | _ => none

/-- A JS property lookup used as a number: a present entry is its
numeric value, a miss is `undefined`, which behaves as `NaN` in the
subtraction inside `spaceship`. -/
def ordNum : Option Nat → JsNum
  | some n => .fin n
  | none => .nan

/-- Model of the implicit `ToNumber` coercion performed by the
subtraction `a - b` inside `spaceship(a, b)` when `compare` reaches its
`boolean`/`number` branch.  In `compare` that subtraction is only ever
reached with boolean, number, date, regexp or error operands (kinds
whose `TYPE_ORDER` ranks coincide or are absent); strings and arrays
never reach it, so their coercion is modelled as `NaN`. -/
def toNumber : Value → JsNum
  | .vundefined => .nan
  | .vnull => .fin 0
  | .vbool b => .fin (if b then 1 else 0)
  | .vnum n => n
  | .vstr _ => .nan
  | .varr _ => .nan
  | .vobj _ => .nan
  | .vdate t => t
  | .vregexp _ => .nan
  | .verror _ => .nan

/-- Lexicographic comparison of two character sequences by character
code, as `-1/0/1`. -/
def charLex : List Char → List Char → Int
  | [], [] => 0
  | [], _ :: _ => -1
  | _ :: _, [] => 1
  | a :: as', b :: bs' => if a < b then -1 else if b < a then 1 else charLex as' bs'

/-- Model of `String.prototype.localeCompare` as the lexicographic
comparison of the two strings (negative / zero / positive result,
normalised to `-1/0/1`; the default-locale collation is modelled by
the character-code order). -/
def localeCompare (a b : String) : Int :=
  charLex a.data b.data

mutual

/-- `Array.prototype.toString`/template-literal stringification of the
elements of an array: elements joined by `','`, with `null` and
`undefined` rendered as the empty string. -/
def toStringList : List Value → List String
  | [] => []
  | v :: rest =>
    (match v with
     | .vnull => ""
     | .vundefined => ""
     | _ => toStringJs v) :: toStringList rest
  termination_by structural l => l

/-- Model of the template-literal stringification `` `${ v }` ``
(JavaScript `ToString`).  Number rendering is exact for integral
values; non-integral rationals and the `Date` rendering are modelled
by explicit deterministic forms (no claim depends on their exact
spelling). -/
def toStringJs : Value → String
  | .vundefined => "undefined"
  | .vnull => "null"
  | .vbool b => if b then "true" else "false"
  | .vnum n =>
    (match n with
     | .nan => "NaN"
     | .inf => "Infinity"
     | .ninf => "-Infinity"
     | .fin i => toString i)
  | .vstr s => s
  | .varr l => String.intercalate "," (toStringList l)
  | .vobj _ => "[object Object]"
  | .vdate t =>
    (match t with
     | .fin i => "Date(" ++ toString i ++ ")"
     | _ => "Invalid Date")
  | .vregexp src => "/" ++ src ++ "/"
  | .verror msg => if msg = "" then "Error" else "Error: " ++ msg
  termination_by structural v => v

end

mutual

/-- Embedding of `compare(a, b)`.  The result is `Except` because the
`date` branch evaluates `b.getTime()`, which throws a `TypeError`
when `b` is not a `Date` (reachable: `TYPE_ORDER` has no entry for
`regexp`/`error`, so `spaceship` on the ranks yields `0` for a
date/regexp pairing and the switch falls into the `date` case). -/
def compare (a b : Value) : Except String Int :=
  let res := spaceship (ordNum (TYPE_ORDER (typeOf a))) (ordNum (TYPE_ORDER (typeOf b)))
  if res ≠ 0 then .ok res
  else
    match a, b with
    | .vbool _, _ => .ok (spaceship (toNumber a) (toNumber b))
    | .vnum _, _ => .ok (spaceship (toNumber a) (toNumber b))
    | .vstr sa, _ => .ok (spaceship (.fin (localeCompare sa (toStringJs b))) (.fin 0))
    | .varr as, .varr bs => compareList as bs
    | .varr _, _ =>
      -- `b.length` is `undefined`: `Math.min(aLen, undefined)` is `NaN`,
      -- the loop does not run, and `spaceship(aLen, undefined)` is `0`.
      .ok 0
    | .vdate ta, .vdate tb => .ok (spaceship ta tb)
    | .vdate _, _ => .error "TypeError: b.getTime is not a function"
    | _, _ => .ok 0
  termination_by structural a

/-- Embedding of the element loop in `compare`'s `array` case: walk the
two arrays in lockstep over the common prefix (`Math.min(aLen, bLen)`
iterations), returning the first non-zero element comparison; when a
list is exhausted, `spaceship(aLen, bLen)` of the original lengths
equals `spaceship` of the remaining lengths (the loop consumed the
same number of elements from both). -/
def compareList : List Value → List Value → Except String Int
  | a :: as', b :: bs' =>
    (match compare a b with
     | .error e => .error e
     | .ok r => if r ≠ 0 then .ok r else compareList as' bs')
  | as', bs' => .ok (spaceship (.fin as'.length) (.fin bs'.length))
  termination_by structural as => as

end

/-- Embedding of the `ISortOpt` interface. -/
structure ISortOpt where
  field : String
  reverse : Bool
deriving DecidableEq

/-- Split a character sequence at every occurrence of `sep` (model of
`String.prototype.split` with a single-character separator; the result
always has one more piece than there are separators). -/
def splitOnChar (sep : Char) : List Char → List (List Char)
  | [] => [[]]
  | c :: rest =>
    let r := splitOnChar sep rest
    if c = sep then [] :: r
    else
      match r with
      | t :: ts => (c :: t) :: ts
      | [] => [[c]]

/-- Embedding of `parseField(str)`: split on `:`; exactly two parts
with the second equal to `"desc"` yields the reverse directive,
otherwise the whole original string is the field. -/
def parseField (str : String) : ISortOpt :=
  let parts := (splitOnChar ':' str.data).map String.mk
  match parts with
  | [p0, p1] => if p1 = "desc" then ⟨p0, true⟩ else ⟨str, false⟩
  | _ => ⟨str, false⟩

/-- Modelled from the spec: the path walk of the external field-path
reader `get` from `./object`, whose source is not under `src/`.  Spec:
"resolves dotted/nested paths against a heterogeneous record and
returns `undefined`/absence when the path is missing" — each segment
is looked up in an object's fields; any other shape, or a missing
key, resolves to `undefined`. -/
def getPath : Value → List String → Value
  | v, [] => v
  | .vobj fields, seg :: rest =>
    (match fields.find? (fun f => f.1 = seg) with
     | some f => getPath f.2 rest
     | none => .vundefined)
  | _, _ :: _ => .vundefined

/-- Modelled from the spec: the external field-path reader
`get(record, path)`, resolving the dot-separated `path`. -/
def get (record : Value) (path : String) : Value :=
  getPath record ((splitOnChar '.' path.data).map String.mk)

/-- Modelled from the spec: the external padding primitive `strPad`
from `./string`, whose source is not under `src/`.  Spec:
"`pad(str, width, padChar) -> str`", left-padding as used by the
numeric-suffix normalizer; a string already at or beyond the width is
returned unchanged. -/
def strPad (s : String) (width : Nat) (padChar : Char) : String :=
  if width ≤ s.length then s
  else String.mk (List.replicate (width - s.length) padChar) ++ s

/-- Model of the regex class `\s` (JavaScript whitespace). -/
def isWs (c : Char) : Bool := c.isWhitespace

/-- Model of `String.prototype.trim`. -/
def jsTrim (s : String) : String :=
  String.mk (((s.data.dropWhile isWs).reverse.dropWhile isWs).reverse)

/-- Model of `String.prototype.toLowerCase` (ASCII case mapping). -/
def jsToLower (s : String) : String :=
  String.mk (s.data.map Char.toLower)

/-- Model of `String.prototype.includes`: `needle` occurs as a
contiguous substring of `hay`. -/
def jsIncludes (hay needle : String) : Bool :=
  (List.range (hay.data.length + 1)).any fun i => needle.data.isPrefixOf (hay.data.drop i)

/-- The TypeScript argument type `string | string[]` of `sortBy` and
`search`. -/
inductive Keys where
  | one (s : String)
  | many (l : List String)

/-- Embedding of `if (!Array.isArray(keys)) { keys = [keys] }`. -/
def normKeys : Keys → List String
  | .one s => [s]
  | .many l => l

/-- Embedding of the comparator closure inside `sortBy`: walk `keys`;
parse each key, read both records at the parsed field, compare; on the
first non-zero result apply the call-level `desc` flip and then the
per-key `reverse` flip (`res *= -1` twice) and return it; a tie falls
through to the next key, and exhausting the keys returns `0`. -/
def sortCmp (keys : List String) (desc : Bool) (objA objB : Value) :
    Except String Int :=
  match keys with
  | [] => .ok 0
  | k :: rest =>
    let parsed := parseField k
    match compare (get objA parsed.field) (get objB parsed.field) with
    | .error e => .error e
    | .ok res =>
      if res ≠ 0 then
        let res1 := if desc then res * -1 else res
        let res2 := if parsed.reverse then res1 * -1 else res1
        .ok res2
      else sortCmp rest desc objA objB

/-- Stable insertion of `x` into a sorted list: `x` is placed before
the first element it does not strictly follow (comparator result
`≤ 0`), so elements comparing equal keep their original relative
order. -/
def insertE (cmpE : α → α → Except String Int) (x : α) :
    List α → Except String (List α)
  | [] => .ok [x]
  | y :: ys =>
    match cmpE x y with
    | .error e => .error e
    | .ok r =>
      if r > 0 then
        match insertE cmpE x ys with
        | .error e => .error e
        | .ok rest => .ok (y :: rest)
      else .ok (x :: y :: ys)

/-- Model of `Array.prototype.sort(comparator)` as a stable insertion
sort in the exception monad: ECMAScript requires a stable sort, and
for a consistent comparator every stable sort produces the same
output; a comparator that throws makes `sort` throw. -/
def jsSortE (cmpE : α → α → Except String Int) :
    List α → Except String (List α)
  | [] => .ok []
  | a :: as' =>
    match jsSortE cmpE as' with
    | .error e => .error e
    | .ok sorted => insertE cmpE a sorted

/-- Embedding of `sortBy(ary, keys, desc)` at the list level: the
sorted copy `ary.slice().sort(comparator)` evaluates to.  The optional
`desc` parameter is a `Bool` (an absent argument is `false`). -/
def sortBy (ary : List Value) (keys : Keys) (desc : Bool) :
    Except String (List Value) :=
  jsSortE (sortCmp (normKeys keys) desc) ary

/-- A heap of arrays, for stating what `sortBy` mutates: each array
lives in a numbered slot; `ary.slice()` allocates a fresh slot, and
`.sort()` rewrites in place the slot it is called on. -/
structure Store where
  arrays : List (List Value)

/-- Read the array in slot `i`. -/
def readArr (s : Store) (i : Nat) : List Value :=
  s.arrays.getD i []

/-- Embedding of `sortBy` against the heap: read the input array,
allocate a fresh slot for `ary.slice()`, sort that copy in place and
return its slot.  When the comparator throws, the call returns
nothing and the heap keeps the copy as allocated; the input slot is
never written in either case. -/
def sortByS (s : Store) (i : Nat) (keys : Keys) (desc : Bool) :
    Store × Except String Nat :=
  let ary := readArr s i
  let copyId := s.arrays.length
  let s1 : Store := ⟨s.arrays ++ [ary]⟩
  match jsSortE (sortCmp (normKeys keys) desc) ary with
  | .ok sorted => (⟨s1.arrays.set copyId sorted⟩, .ok copyId)
  | .error e => (s1, .error e)

/-- Helper for `splitRuns`: extend the current run (accumulated
reversed in `cur`) while the classifier keeps the value it has on
`prev`; start a new run when it changes. -/
def splitRunsGo (f : Char → Bool) (prev : Char) (cur : List Char) :
    List Char → List (List Char)
  | [] => [cur.reverse]
  | c :: rest =>
    if f c = f prev then splitRunsGo f c (c :: cur) rest
    else cur.reverse :: splitRunsGo f c [c] rest

/-- Split a character sequence into maximal runs of characters that
agree on the classifier `f`.  With `f = Char.isDigit` this models the
capturing split `str.split(/([^\d]+)/)` up to the empty boundary
pieces that split produces, which vanish in the subsequent
`.join('')`; with `f = isWs` it isolates whitespace runs for the
query tokenizer. -/
def splitRuns (f : Char → Bool) : List Char → List (List Char)
  | [] => []
  | c :: rest => splitRunsGo f c [c] rest

/-- The per-run transform inside `sortableNumericSuffix`: a run
matching `/^[0-9]+$/` (non-empty, all digits) is left-padded with
`'0'` to width 10 via `strPad`; any other run passes through. -/
def padRun (run : List Char) : List Char :=
  if run ≠ [] ∧ run.all Char.isDigit then (strPad (String.mk run) 10 '0').data
  else run

/-- Embedding of `sortableNumericSuffix(str)`: non-strings pass
through unchanged; a string is split into digit / non-digit runs,
every pure-digit run is zero-padded to width 10, the runs are rejoined
in their original order and the result is trimmed. -/
def sortableNumericSuffix (v : Value) : Value :=
  match v with
  | .vstr s =>
    .vstr (jsTrim (String.mk (((splitRuns Char.isDigit s.data).map padRun).flatten)))
  | _ => v

/-- Fold a run list into query tokens: a whitespace run containing at
least one space is one separator (`\s*[, ]\s*` always consumes such a
run whole, by greediness and backtracking onto the space); any other
run — including a whitespace run with no space, which the regex cannot
match — is token content glued to its neighbours. -/
def runsToTokens : List (List Char) → List (List Char)
  | [] => [[]]
  | r :: rs =>
    let rest := runsToTokens rs
    if r.contains ' ' then [] :: rest
    else
      match rest with
      | t :: ts => (r ++ t) :: ts
      | [] => [r]

/-- Tokens of one comma-free stretch of the query: the whitespace
adjacent to the enclosing commas is consumed by those separators
(`\s*` on either side of `[, ]`), hence the trim; the remaining
whitespace runs containing a space each separate two tokens. -/
def pieceTokens (piece : List Char) : List (List Char) :=
  runsToTokens (splitRuns isWs (jsTrim (String.mk piece)).data)

/-- Embedding of the query tokenization
`query.split(/\s*[, ]\s*/)`: every comma is the `[, ]` of exactly one
separator match, and the comma-free stretches in between are cut at
their whitespace-with-space runs. -/
def tokenize (q : String) : List String :=
  (((splitOnChar ',' q.data).map pieceTokens).flatten).map String.mk

/-- Embedding of the `FieldSpec` interface. -/
structure FieldSpec where
  field : String
  modifier : String
deriving DecidableEq

/-- Embedding of the field-spec construction inside `search`.  When
the key contains `:`, the code truncates `field` to the part before
the colon *first* and only then evaluates `field.substring(idx + 1)` —
on the truncated string, whose length is `idx`, so the extracted
modifier is the empty string. -/
def parseSearchKey (key : String) : FieldSpec :=
  let cs := key.data
  if cs.contains ':' then
    let idx := cs.findIdx (fun c => c = ':')
    let fieldCs := cs.take idx
    let modifierCs := fieldCs.drop (idx + 1)
    ⟨String.mk fieldCs, String.mk modifierCs⟩
  else ⟨key, ""⟩

/-- One token against one field spec: the stringified, lowercased
field value, compared for equality under modifier `"exact"` and by
substring containment otherwise. -/
def specMatches (row : Value) (spec : FieldSpec) (token : String) : Bool :=
  let val := jsToLower (toStringJs (get row spec.field))
  if spec.modifier = "exact" then val == token else jsIncludes val token

/-- The inner field loop of `search`: scanning stops at the first
matching spec, so the token matches iff some spec matches. -/
def tokenMatches (row : Value) (fields : List FieldSpec) (token : String) : Bool :=
  fields.any (fun spec => specMatches row spec token)

/-- The token loop of `search`: the row is flagged and the loop left
as soon as some token matches (`rowMatches = true; break`). -/
def rowMatches (row : Value) (fields : List FieldSpec) (tokens : List String) : Bool :=
  tokens.any (fun token => tokenMatches row fields token)

/-- Embedding of `search(ary, query, keys)`: normalize the query
(trim, lowercase — `(query || '')` only renames other falsy values and
leaves every string unchanged), tokenize it, build the field specs
from the normalized keys, and keep exactly the rows the token loop
flags. -/
def search (ary : List Value) (query : String) (keys : Keys) : List Value :=
  let q := jsToLower (jsTrim query)
  let tokens := tokenize q
  let fields := (normKeys keys).map parseSearchKey
  ary.filter (fun row => rowMatches row fields tokens)

/-! ## Claim-side definitions

The definitions below phrase notions the spec's claims use, to be
compared against the embedded source functions above. -/

/-- The sign of an integer, `-1/0/1`, as the claims use it. -/
def signInt (n : Int) : Int :=
  if 0 < n then 1 else if n < 0 then -1 else 0

/-- One conditional sign flip, as the claims describe each of the two
`res *= -1` steps of `sortBy`. -/
def flipIf (b : Bool) (r : Int) : Int :=
  if b then -r else r

/-- The claim's description of `compare`'s `array` branch as its own
recursion: element-wise `compare` over the common prefix, the first
non-zero result wins, and an exhausted prefix falls back to the sign
of the length difference, the shorter array first. -/
def arrayLexSpec : List Value → List Value → Except String Int
  | [], [] => .ok 0
  | [], _ :: _ => .ok (-1)
  | _ :: _, [] => .ok 1
  | a :: as', b :: bs' =>
    match compare a b with
    | .error e => .error e
    | .ok r => if r = 0 then arrayLexSpec as' bs' else .ok r

mutual

/-- No position of the two values, walking nested arrays in lockstep,
pairs a date on the left with a regexp or error on the right — the
only pairing on which `compare` can throw. -/
def clashFree : Value → Value → Bool
  | .vdate _, .vregexp _ => false
  | .vdate _, .verror _ => false
  | .varr as, .varr bs => clashFreeList as bs
  | _, _ => true
  termination_by structural a => a

/-- `clashFree`, pointwise over two lists (positions beyond the
shorter list are never compared). -/
def clashFreeList : List Value → List Value → Bool
  | a :: as', b :: bs' => clashFree a b && clashFreeList as' bs'
  | _, _ => true
  termination_by structural as => as

end

/-! ## Helper lemmas -/

theorem spaceship_fin (a b : Int) : spaceship (.fin a) (.fin b) = signInt (a - b) := by
  simp only [spaceship, JsNum.sub, JsNum.gtZero, JsNum.ltZero, signInt]
  split_ifs <;> simp_all
  omega

theorem spaceship_neg (a b : JsNum) : spaceship a b = -spaceship b a := by
  cases a <;> cases b <;>
    simp only [spaceship, JsNum.sub, JsNum.gtZero, JsNum.ltZero] <;>
    first
    | rfl
    | (split_ifs <;> simp_all <;> omega)

theorem charLex_neg (a b : List Char) : charLex a b = -charLex b a := by
  induction a generalizing b with
  | nil => cases b <;> rfl
  | cons x as' ih =>
    cases b with
    | nil => rfl
    | cons y bs' =>
      rcases lt_trichotomy x y with h | h | h
      · simp [charLex, h, asymm h]
      · subst h
        simp [charLex, lt_irrefl, ih]
      · simp [charLex, h, asymm h]

/-- `compare` on two numbers: both ranks are `3`, so the `number`
branch runs. -/
theorem compare_num (x y : JsNum) :
    compare (.vnum x) (.vnum y) = .ok (spaceship x y) := rfl

/-- `compare` on two strings: both ranks are `4`, so the `string`
branch runs on the (identity) stringification of `b`. -/
theorem compare_str (s t : String) :
    compare (.vstr s) (.vstr t) = .ok (spaceship (.fin (localeCompare s t)) (.fin 0)) := rfl

/-- `compare` on two arrays: both ranks are `5`, so the element loop
runs. -/
theorem compare_arr (as bs : List Value) :
    compare (.varr as) (.varr bs) = compareList as bs := rfl

theorem compareList_cons (a b : Value) (as bs : List Value) :
    compareList (a :: as) (b :: bs)
      = (match compare a b with
         | .error e => .error e
         | .ok r => if r ≠ 0 then .ok r else compareList as bs) := rfl

theorem compareList_nil_left (bs : List Value) :
    compareList [] bs = .ok (spaceship (.fin 0) (.fin bs.length)) := rfl

theorem compareList_cons_nil (a : Value) (as : List Value) :
    compareList (a :: as) [] = .ok (spaceship (.fin (a :: as).length) (.fin 0)) := rfl

theorem compare_isOk_of_clashFree :
    ∀ a b : Value, clashFree a b = true → (compare a b).isOk = true := by
  refine fun a b =>
    clashFree.induct
      (fun a b => clashFree a b = true → (compare a b).isOk = true)
      (fun as bs => clashFreeList as bs = true → (compareList as bs).isOk = true)
      ?_ ?_ ?_ ?_ ?_ ?_ a b
  · intro t s hcf
    exact Bool.noConfusion hcf
  · intro t m hcf
    exact Bool.noConfusion hcf
  · intro as bs ih hcf
    rw [compare_arr]
    exact ih hcf
  · intro t x hdr hde harr _
    cases t <;> cases x <;>
      first
      | rfl
      | exact (harr _ _ rfl rfl).elim
      | exact (hdr _ _ rfl rfl).elim
      | exact (hde _ _ rfl rfl).elim
  · intro a as' b bs' ih ihl hcf
    have hand : (clashFree a b && clashFreeList as' bs') = true := hcf
    rw [Bool.and_eq_true] at hand
    rw [compareList_cons]
    rcases hok : compare a b with e | r
    · have := ih hand.1
      rw [hok] at this
      exact Bool.noConfusion this
    · change (if r ≠ 0 then (Except.ok r : Except String Int) else compareList as' bs').isOk = true
      by_cases hr : r = 0
      · rw [if_neg (not_not_intro hr)]
        exact ihl hand.2
      · rw [if_pos hr]
        rfl
  · intro as' bs' hshape _
    match as', bs' with
    | [], bs' => rw [compareList_nil_left]; rfl
    | a :: as'', [] => rw [compareList_cons_nil]; rfl
    | a :: as'', b :: bs'' => exact absurd rfl (fun h => hshape a as'' b bs'' h rfl)

theorem spaceship_nan_left (x : JsNum) : spaceship .nan x = 0 := by
  cases x <;> rfl

theorem spaceship_nan_right (x : JsNum) : spaceship x .nan = 0 := by
  cases x <;> rfl

theorem compareList_eq_arrayLexSpec : ∀ as bs, compareList as bs = arrayLexSpec as bs := by
  intro as
  induction as with
  | nil =>
    intro bs
    cases bs with
    | nil => rfl
    | cons b bs' =>
      rw [compareList_nil_left]
      show _ = (Except.ok (-1) : Except String Int)
      rw [spaceship_fin]
      refine congrArg Except.ok ?_
      simp only [signInt, List.length_cons]
      split_ifs <;> omega
  | cons a as' ih =>
    intro bs
    cases bs with
    | nil =>
      rw [compareList_cons_nil]
      show _ = (Except.ok 1 : Except String Int)
      rw [spaceship_fin]
      refine congrArg Except.ok ?_
      simp only [signInt, List.length_cons]
      split_ifs <;> omega
    | cons b bs' =>
      rw [compareList_cons]
      rcases h : compare a b with e | r
      · simp [arrayLexSpec, h]
      · simp only [arrayLexSpec, h]
        by_cases hr : r = 0
        · rw [if_neg (not_not_intro hr), if_pos hr]
          exact ih bs'
        · rw [if_pos hr, if_neg hr]

/-! ## Claim theorems -/

/-- **C3 (counterexample).** The claim states `compare` never throws for
any input shape including Dates, Errors and RegExps; but comparing a
date against a regexp reaches the `date` branch (their rank subtraction
is `NaN`, so the rank test yields `0`) and calls `b.getTime()` on the
regexp, which throws. -/
theorem c3_counterexample :
    compare (.vdate (.fin 0)) (.vregexp "x")
      = .error "TypeError: b.getTime is not a function" := rfl

/-- **C3 (amended).** `compare(a, b)` returns a value without throwing
for every pair of inputs in which no position — walking nested arrays
in lockstep — pairs a date on the left with a regexp or error on the
right; on such pairings (and only there) it throws a `TypeError` from
`b.getTime()`. -/
theorem c3_compare_total_unless_date_clash (a b : Value)
    (h : clashFree a b = true) : (compare a b).isOk = true :=
  compare_isOk_of_clashFree a b h

/-- Witness for C3: a concrete clash-free pair, including nested
arrays, `NaN` and an empty array. -/
theorem c3_compare_total_unless_date_clash_witness :
    (compare (.varr [.vnum .nan, .varr [], .vstr "x"]) (.varr [.vnum (.fin 2), .vbool true])).isOk
      = true :=
  c3_compare_total_unless_date_clash
    (.varr [.vnum .nan, .varr [], .vstr "x"]) (.varr [.vnum (.fin 2), .vbool true]) rfl

set_option maxHeartbeats 1600000 in
/-- **C4.** For values of differing kinds that both appear in
`TYPE_ORDER`, `compare` returns exactly the sign of the precedence
difference, regardless of the values' content; when either kind is
missing from the table, the precedence comparison falls back to `0`
(its subtraction is `NaN`). -/
theorem c4_kind_precedence :
    (∀ a b : Value, typeOf a ≠ typeOf b →
        ∀ pa pb : Nat, TYPE_ORDER (typeOf a) = some pa → TYPE_ORDER (typeOf b) = some pb →
        compare a b = .ok (signInt ((pa : Int) - (pb : Int))))
    ∧ (∀ a b : Value,
        TYPE_ORDER (typeOf a) = none ∨ TYPE_ORDER (typeOf b) = none →
        spaceship (ordNum (TYPE_ORDER (typeOf a))) (ordNum (TYPE_ORDER (typeOf b))) = 0) := by
  constructor
  · intro a b hne pa pb hpa hpb
    cases a <;> cases b <;>
      first
      | exact absurd rfl hne
      | exact Option.noConfusion hpa
      | exact Option.noConfusion hpb
      | (injection hpa with h1; injection hpb with h2; subst h1; subst h2; rfl)
  · intro a b h
    rcases h with h | h
    · rw [h]
      exact spaceship_nan_left _
    · rw [h]
      exact spaceship_nan_right _

/-- Witness for C4: number vs string compares by rank (`3` vs `4`),
and a date/regexp pairing has a rank test of `0`. -/
theorem c4_kind_precedence_witness :
    compare (.vnum (.fin 5)) (.vstr "a") = .ok (signInt ((3 : Int) - (4 : Int)))
    ∧ spaceship (ordNum (TYPE_ORDER (typeOf (.vdate (.fin 0)))))
        (ordNum (TYPE_ORDER (typeOf (.vregexp "r")))) = 0 :=
  ⟨c4_kind_precedence.1 (.vnum (.fin 5)) (.vstr "a") (by decide) 3 4 rfl rfl,
   c4_kind_precedence.2 (.vdate (.fin 0)) (.vregexp "r") (Or.inr rfl)⟩

/-- **C6.** On two arrays, `compare` is exactly the claim's
lexicographic recursion: element-wise `compare` over the common
prefix, first non-zero result wins, and an exhausted prefix falls
back to the sign of the length difference (shorter array first). -/
theorem c6_array_compare (as bs : List Value) :
    compare (.varr as) (.varr bs) = arrayLexSpec as bs := by
  rw [compare_arr]
  exact compareList_eq_arrayLexSpec as bs

/-- **C9.** On two numbers or two strings, `compare(a, b)` is the
negation of `compare(b, a)`. -/
theorem c9_compare_antisymm :
    (∀ x y : JsNum, compare (.vnum x) (.vnum y)
        = (compare (.vnum y) (.vnum x)).map (fun r => -r))
    ∧ (∀ s t : String, compare (.vstr s) (.vstr t)
        = (compare (.vstr t) (.vstr s)).map (fun r => -r)) := by
  constructor
  · intro x y
    rw [compare_num, compare_num]
    show Except.ok (spaceship x y) = .ok (-spaceship y x)
    rw [spaceship_neg]
  · intro s t
    rw [compare_str, compare_str]
    show Except.ok (spaceship (.fin (localeCompare s t)) (.fin 0))
        = .ok (-spaceship (.fin (localeCompare t s)) (.fin 0))
    rw [spaceship_fin, spaceship_fin, localeCompare, localeCompare,
      charLex_neg s.data t.data]
    refine congrArg Except.ok ?_
    simp only [signInt]
    split_ifs <;> omega

theorem sortCmp_nil (desc : Bool) (objA objB : Value) :
    sortCmp [] desc objA objB = .ok 0 := rfl

theorem sortCmp_cons (k : String) (rest : List String) (desc : Bool) (objA objB : Value) :
    sortCmp (k :: rest) desc objA objB
      = (match compare (get objA (parseField k).field) (get objB (parseField k).field) with
         | .error e => .error e
         | .ok res =>
           if res ≠ 0 then
             .ok (if (parseField k).reverse
                  then (if desc then res * -1 else res) * -1
                  else (if desc then res * -1 else res))
           else sortCmp rest desc objA objB) := rfl

/-- **C5.** In the `sortBy` comparator, when all keys before `k` tie
and `k`'s comparison is non-zero, the returned order is that result
flipped once when the call-level `desc` flag is set and flipped a
second time when `k`'s own `reverse` flag (from a `:desc` suffix) is
set; in particular, the two flips cancel: `sortBy` with `desc = true`
and key `"a:desc"` equals the plain ascending `sortBy` by `"a"`. -/
theorem c5_sort_double_flip :
    (∀ (pre : List String) (k : String) (rest : List String) (desc : Bool)
        (objA objB : Value) (r : Int),
        (∀ k' ∈ pre,
          compare (get objA (parseField k').field) (get objB (parseField k').field) = .ok 0) →
        compare (get objA (parseField k).field) (get objB (parseField k).field) = .ok r →
        r ≠ 0 →
        sortCmp (pre ++ k :: rest) desc objA objB
          = .ok (flipIf (parseField k).reverse (flipIf desc r)))
    ∧ (∀ ary : List Value, sortBy ary (.one "a:desc") true = sortBy ary (.one "a") false) := by
  constructor
  · intro pre
    induction pre with
    | nil =>
      intro k rest desc objA objB r _ hk hr
      rw [List.nil_append, sortCmp_cons, hk]
      show (if r ≠ 0 then _ else _) = _
      rw [if_pos hr]
      refine congrArg Except.ok ?_
      simp only [flipIf]
      split_ifs <;> omega
    | cons p pre' ih =>
      intro k rest desc objA objB r hpre hk hr
      rw [List.cons_append, sortCmp_cons, hpre p (by simp)]
      show (if (0 : Int) ≠ 0 then _ else _) = _
      rw [if_neg (by omega)]
      exact ih k rest desc objA objB r (fun k' hk' => hpre k' (by simp [hk'])) hk hr
  · have hc : ∀ objA objB : Value,
        sortCmp ["a:desc"] true objA objB = sortCmp ["a"] false objA objB := by
      intro objA objB
      change (match compare (get objA "a") (get objB "a") with
              | .error e => (Except.error e : Except String Int)
              | .ok res => if res ≠ 0 then .ok (res * -1 * -1) else .ok 0)
          = (match compare (get objA "a") (get objB "a") with
              | .error e => .error e
              | .ok res => if res ≠ 0 then .ok res else .ok 0)
      rcases h : compare (get objA "a") (get objB "a") with e | res
      · rfl
      · show (if res ≠ 0 then Except.ok (res * -1 * -1) else Except.ok 0)
            = (if res ≠ 0 then Except.ok res else Except.ok 0)
        by_cases hr : res = 0
        · rw [if_neg (not_not_intro hr), if_neg (not_not_intro hr)]
        · rw [if_pos hr, if_pos hr]
          refine congrArg Except.ok ?_
          omega
    intro ary
    show jsSortE (sortCmp ["a:desc"] true) ary = jsSortE (sortCmp ["a"] false) ary
    rw [funext fun objA => funext fun objB => hc objA objB]

/-- Witness for C5: one key `"b:desc"` with `desc = true` on two
records whose `b` fields compare `-1`; the two flips cancel. -/
theorem c5_sort_double_flip_witness :
    sortCmp ["b:desc"] true (.vobj [("b", .vnum (.fin 1))]) (.vobj [("b", .vnum (.fin 2))])
      = .ok (-1) := by
  have h := c5_sort_double_flip.1 [] "b:desc" [] true
    (.vobj [("b", .vnum (.fin 1))]) (.vobj [("b", .vnum (.fin 2))]) (-1)
    (fun k' hk' => absurd hk' (List.not_mem_nil k'))
    (by rfl) (by omega)
  exact h

theorem readArr_fresh_slot (l : List (List Value)) (i : Nat) (hi : i < l.length)
    (x y : List Value) :
    ((l ++ [x]).set l.length y).getD i [] = l.getD i [] := by
  rw [List.getD_eq_getElem?_getD, List.getD_eq_getElem?_getD,
    List.getElem?_set_ne (by omega), List.getElem?_append_left hi]

theorem readArr_append (l : List (List Value)) (i : Nat) (hi : i < l.length)
    (x : List Value) :
    (l ++ [x]).getD i [] = l.getD i [] := by
  rw [List.getD_eq_getElem?_getD, List.getD_eq_getElem?_getD,
    List.getElem?_append_left hi]

/-- **C7.** `sortBy` never writes the input slot: after the call the
input array is unchanged, and on success the returned collection is a
freshly allocated slot, distinct from the input's. -/
theorem c7_sortBy_input_unchanged (s : Store) (i : Nat) (keys : Keys) (desc : Bool)
    (hi : i < s.arrays.length) :
    readArr (sortByS s i keys desc).1 i = readArr s i
    ∧ ∀ j, (sortByS s i keys desc).2 = .ok j → j ≠ i := by
  have hEq : sortByS s i keys desc
      = (match jsSortE (sortCmp (normKeys keys) desc) (readArr s i) with
         | .ok sorted =>
           ((⟨(s.arrays ++ [readArr s i]).set s.arrays.length sorted⟩ : Store),
            (.ok s.arrays.length : Except String Nat))
         | .error e => (⟨s.arrays ++ [readArr s i]⟩, .error e)) := rfl
  rcases h : jsSortE (sortCmp (normKeys keys) desc) (readArr s i) with e | sorted <;>
    rw [h] at hEq <;> rw [hEq]
  · exact ⟨readArr_append s.arrays i hi _, fun j hj => absurd hj (by simp)⟩
  · exact ⟨readArr_fresh_slot s.arrays i hi _ _, fun j hj => by
      injection hj with hj'
      omega⟩

/-- Witness for C7: a one-slot heap; the sorted copy lands in slot 1,
slot 0 is untouched. -/
theorem c7_sortBy_input_unchanged_witness :
    readArr (sortByS ⟨[[.vnull, .vbool true]]⟩ 0 (.one "a") false).1 0
        = readArr ⟨[[.vnull, .vbool true]]⟩ 0
    ∧ (1 : Nat) ≠ 0 :=
  ⟨(c7_sortBy_input_unchanged ⟨[[.vnull, .vbool true]]⟩ 0 (.one "a") false (by decide)).1,
   (c7_sortBy_input_unchanged ⟨[[.vnull, .vbool true]]⟩ 0 (.one "a") false (by decide)).2 1 rfl⟩

theorem insertE_cons {α : Type} (cmpE : α → α → Except String Int) (x y : α) (ys : List α) :
    insertE cmpE x (y :: ys)
      = (match cmpE x y with
         | .error e => .error e
         | .ok r =>
           if r > 0 then
             (match insertE cmpE x ys with
              | .error e => .error e
              | .ok rest => .ok (y :: rest))
           else .ok (x :: y :: ys)) := rfl

theorem insertE_perm {α : Type} (cmpE : α → α → Except String Int) (x : α) :
    ∀ l out, insertE cmpE x l = .ok out → out.Perm (x :: l) := by
  intro l
  induction l with
  | nil =>
    intro out h
    injection h with h'
    rw [← h']
  | cons y ys ih =>
    intro out h
    rw [insertE_cons] at h
    rcases hc : cmpE x y with e | r <;> rw [hc] at h
    · exact Except.noConfusion h
    · change (if r > 0 then
            (match insertE cmpE x ys with
             | .error e => (Except.error e : Except String (List α))
             | .ok rest => .ok (y :: rest))
          else .ok (x :: y :: ys)) = .ok out at h
      by_cases hr : r > 0
      · rw [if_pos hr] at h
        rcases hi : insertE cmpE x ys with e | rest <;> rw [hi] at h
        · exact Except.noConfusion h
        · change Except.ok (y :: rest) = .ok out at h
          injection h with h'
          rw [← h']
          exact ((ih rest hi).cons y).trans (List.Perm.swap x y ys)
      · rw [if_neg hr] at h
        injection h with h'
        rw [← h']

theorem jsSortE_cons {α : Type} (cmpE : α → α → Except String Int) (a : α) (as' : List α) :
    jsSortE cmpE (a :: as')
      = (match jsSortE cmpE as' with
         | .error e => .error e
         | .ok sorted => insertE cmpE a sorted) := rfl

theorem jsSortE_perm {α : Type} (cmpE : α → α → Except String Int) :
    ∀ l out, jsSortE cmpE l = .ok out → out.Perm l := by
  intro l
  induction l with
  | nil =>
    intro out h
    injection h with h'
    rw [← h']
  | cons a as' ih =>
    intro out h
    rw [jsSortE_cons] at h
    rcases hs : jsSortE cmpE as' with e | sorted <;> rw [hs] at h
    · exact Except.noConfusion h
    · change insertE cmpE a sorted = .ok out at h
      exact (insertE_perm cmpE a sorted out h).trans ((ih sorted hs).cons a)

/-- **C10.** Whatever `sortBy` returns (when the comparator does not
throw) is a permutation of the input list: same length, same multiset
of elements, none added, dropped or replaced. -/
theorem c10_sortBy_perm (ary : List Value) (keys : Keys) (desc : Bool)
    (out : List Value) (h : sortBy ary keys desc = .ok out) : out.Perm ary :=
  jsSortE_perm (sortCmp (normKeys keys) desc) ary out h

/-- Witness for C10: sorting two records by `"a"` swaps them, a
permutation of the input. -/
theorem c10_sortBy_perm_witness :
    ([Value.vobj [("a", .vnum (.fin 1))], .vobj [("a", .vnum (.fin 2))]] : List Value).Perm
      [.vobj [("a", .vnum (.fin 2))], .vobj [("a", .vnum (.fin 1))]] :=
  c10_sortBy_perm
    [.vobj [("a", .vnum (.fin 2))], .vobj [("a", .vnum (.fin 1))]]
    (.one "a") false
    [.vobj [("a", .vnum (.fin 1))], .vobj [("a", .vnum (.fin 2))]]
    rfl

/-- **C1 (counterexample).** With query `"a zzz"` (tokens `"a"` and
`"zzz"`) the record `{name: "a"}` is kept although the token `"zzz"`
matches no field: the token loop flags the row as soon as one token
matches, so the claim's "every token matches" direction fails on the
code. -/
theorem c1_counterexample :
    search [.vobj [("name", .vstr "a")]] "a zzz" (.one "name")
        = [.vobj [("name", .vstr "a")]]
    ∧ ¬ (∀ t ∈ tokenize (jsToLower (jsTrim "a zzz")),
          tokenMatches (.vobj [("name", .vstr "a")])
            ((normKeys (.one "name")).map parseSearchKey) t = true) := by
  refine ⟨rfl, fun h => ?_⟩
  have hm : "zzz" ∈ tokenize (jsToLower (jsTrim "a zzz")) := by
    rw [show tokenize (jsToLower (jsTrim "a zzz")) = ["a", "zzz"] from rfl]
    simp
  have hz := h "zzz" hm
  have hf : tokenMatches (.vobj [("name", .vstr "a")])
      ((normKeys (.one "name")).map parseSearchKey) "zzz" = false := rfl
  rw [hf] at hz
  exact Bool.noConfusion hz

/-- **C1 (amended).** A record is kept by `search` iff it occurs in
the input and at least one token produced from the normalized query
matches at least one of the specified fields (disjunction over
tokens, disjunction over fields per token). -/
theorem c1_search_keeps_iff (ary : List Value) (query : String) (keys : Keys)
    (row : Value) (_hkeys : normKeys keys ≠ []) :
    row ∈ search ary query keys ↔
      row ∈ ary ∧ ∃ t ∈ tokenize (jsToLower (jsTrim query)),
        tokenMatches row ((normKeys keys).map parseSearchKey) t = true := by
  change row ∈ ary.filter
      (fun r => rowMatches r ((normKeys keys).map parseSearchKey)
        (tokenize (jsToLower (jsTrim query)))) ↔ _
  rw [List.mem_filter]
  simp only [rowMatches, List.any_eq_true]

/-- Witness for C1: the single token `"foo"` substring-matches the
`name` field, so the record is kept. -/
theorem c1_search_keeps_iff_witness :
    Value.vobj [("name", .vstr "foo")] ∈
      search [.vobj [("name", .vstr "foo")]] "foo" (.one "name") :=
  (c1_search_keeps_iff [.vobj [("name", .vstr "foo")]] "foo" (.one "name")
      (.vobj [("name", .vstr "foo")]) (by simp [normKeys])).mpr
    ⟨by simp, "foo",
     by rw [show tokenize (jsToLower (jsTrim "foo")) = ["foo"] from rfl]; simp,
     by rfl⟩

/-- **C2 (code bug).** The spec intends a key `"path:exact"` to carry
modifier `"exact"` with exact matching — `search` even has a dedicated
`spec.modifier === 'exact'` branch — but the code truncates `field`
before evaluating `field.substring(idx + 1)`, so the extracted
modifier is `""` for every key, the exact branch is unreachable, and
`{name: "xfoox"}` is kept for query `"foo"` under key `"name:exact"`
by substring matching. -/
theorem c2_exact_modifier_dead :
    (∀ key : String, (parseSearchKey key).modifier = "")
    ∧ parseSearchKey "name:exact" = ⟨"name", ""⟩
    ∧ search [.vobj [("name", .vstr "xfoox")]] "foo" (.one "name:exact")
        = [.vobj [("name", .vstr "xfoox")]] := by
  refine ⟨?_, rfl, rfl⟩
  intro key
  change (if key.data.contains ':' = true then
      (⟨String.mk (key.data.take (key.data.findIdx (fun c => c = ':'))),
        String.mk ((key.data.take (key.data.findIdx (fun c => c = ':'))).drop
          (key.data.findIdx (fun c => c = ':') + 1))⟩ : FieldSpec)
    else ⟨key, ""⟩).modifier = ""
  by_cases h : key.data.contains ':' = true
  · rw [if_pos h]
    show String.mk ((key.data.take (key.data.findIdx (fun c => c = ':'))).drop
        (key.data.findIdx (fun c => c = ':') + 1)) = ""
    rw [List.drop_eq_nil_of_le
      (le_trans (List.length_take_le _ _) (Nat.le_succ _))]
  · rw [if_neg h]

theorem splitRunsGo_flatten (f : Char → Bool) :
    ∀ (l : List Char) (prev : Char) (cur : List Char),
      (splitRunsGo f prev cur l).flatten = cur.reverse ++ l := by
  intro l
  induction l with
  | nil =>
    intro prev cur
    simp [splitRunsGo]
  | cons c rest ih =>
    intro prev cur
    simp only [splitRunsGo]
    by_cases h : f c = f prev
    · rw [if_pos h, ih]
      simp
    · rw [if_neg h]
      simp [ih]

theorem splitRuns_flatten (f : Char → Bool) (cs : List Char) :
    (splitRuns f cs).flatten = cs := by
  cases cs with
  | nil => rfl
  | cons c rest =>
    show (splitRunsGo f c [c] rest).flatten = c :: rest
    rw [splitRunsGo_flatten]
    rfl

theorem splitRunsGo_ne_nil (f : Char → Bool) :
    ∀ (l : List Char) (prev : Char) (cur : List Char), cur ≠ [] →
      ∀ r ∈ splitRunsGo f prev cur l, r ≠ [] := by
  intro l
  induction l with
  | nil =>
    intro prev cur hcur r hr
    simp only [splitRunsGo, List.mem_singleton] at hr
    simpa [hr] using hcur
  | cons c rest ih =>
    intro prev cur hcur r hr
    simp only [splitRunsGo] at hr
    by_cases h : f c = f prev
    · rw [if_pos h] at hr
      exact ih c (c :: cur) (by simp) r hr
    · rw [if_neg h] at hr
      rcases List.mem_cons.mp hr with h1 | h1
      · simpa [h1] using hcur
      · exact ih c [c] (by simp) r h1

theorem splitRunsGo_homog (f : Char → Bool) :
    ∀ (l : List Char) (prev : Char) (cur : List Char),
      (∀ x ∈ cur, f x = f prev) →
      ∀ r ∈ splitRunsGo f prev cur l, ∃ b, ∀ x ∈ r, f x = b := by
  intro l
  induction l with
  | nil =>
    intro prev cur hinv r hr
    simp only [splitRunsGo, List.mem_singleton] at hr
    exact ⟨f prev, fun x hx => hinv x (by rw [hr] at hx; exact List.mem_reverse.mp hx)⟩
  | cons c rest ih =>
    intro prev cur hinv r hr
    simp only [splitRunsGo] at hr
    by_cases h : f c = f prev
    · rw [if_pos h] at hr
      refine ih c (c :: cur) ?_ r hr
      intro x hx
      rcases List.mem_cons.mp hx with h1 | h1
      · rw [h1]
      · rw [hinv x h1, h]
    · rw [if_neg h] at hr
      rcases List.mem_cons.mp hr with h1 | h1
      · exact ⟨f prev, fun x hx => hinv x (by rw [h1] at hx; exact List.mem_reverse.mp hx)⟩
      · exact ih c [c] (by simp) r h1

theorem all_of_homog (f : Char → Bool) (b : Bool) :
    ∀ r : List Char, r ≠ [] → (∀ x ∈ r, f x = b) → r.all f = b := by
  intro r hne hall
  cases b
  · cases r with
    | nil => exact absurd rfl hne
    | cons z zs =>
      have hz := hall z (by simp)
      simp [List.all_cons, hz]
  · rw [List.all_eq_true]
    exact hall

theorem splitRunsGo_head_class (f : Char → Bool) :
    ∀ (l : List Char) (prev : Char) (cur : List Char), cur ≠ [] →
      (∀ x ∈ cur, f x = f prev) →
      ∀ r ∈ (splitRunsGo f prev cur l).head?, r.all f = f prev := by
  intro l
  induction l with
  | nil =>
    intro prev cur hcur hinv r hr
    simp only [splitRunsGo, List.head?_cons, Option.mem_def, Option.some.injEq] at hr
    rw [← hr]
    exact all_of_homog f (f prev) cur.reverse (by simpa using hcur)
      (fun x hx => hinv x (List.mem_reverse.mp hx))
  | cons c rest ih =>
    intro prev cur hcur hinv r hr
    simp only [splitRunsGo] at hr
    by_cases h : f c = f prev
    · rw [if_pos h] at hr
      rw [← h]
      refine ih c (c :: cur) (by simp) ?_ r hr
      intro x hx
      rcases List.mem_cons.mp hx with h1 | h1
      · rw [h1]
      · rw [hinv x h1, h]
    · rw [if_neg h] at hr
      simp only [List.head?_cons, Option.mem_def, Option.some.injEq] at hr
      rw [← hr]
      exact all_of_homog f (f prev) cur.reverse (by simpa using hcur)
        (fun x hx => hinv x (List.mem_reverse.mp hx))

theorem splitRunsGo_chain (f : Char → Bool) :
    ∀ (l : List Char) (prev : Char) (cur : List Char), cur ≠ [] →
      (∀ x ∈ cur, f x = f prev) →
      List.Chain' (fun r1 r2 => r1.all f ≠ r2.all f) (splitRunsGo f prev cur l) := by
  intro l
  induction l with
  | nil =>
    intro prev cur _ _
    simp [splitRunsGo]
  | cons c rest ih =>
    intro prev cur hcur hinv
    simp only [splitRunsGo]
    by_cases h : f c = f prev
    · rw [if_pos h]
      refine ih c (c :: cur) (by simp) ?_
      intro x hx
      rcases List.mem_cons.mp hx with h1 | h1
      · rw [h1]
      · rw [hinv x h1, h]
    · rw [if_neg h]
      rw [List.chain'_cons']
      refine ⟨?_, ih c [c] (by simp) (by simp)⟩
      intro r hr
      have h1 : cur.reverse.all f = f prev :=
        all_of_homog f (f prev) cur.reverse (by simpa using hcur)
          (fun x hx => hinv x (List.mem_reverse.mp hx))
      have h2 : r.all f = f c :=
        splitRunsGo_head_class f rest c [c] (by simp) (by simp) r hr
      rw [h1, h2]
      exact fun hc => h (hc.symm)

/-- **C8.** `sortableNumericSuffix` on a string splits it into
alternating digit / non-digit runs (non-empty, homogeneous, adjacent
runs of different classes, rejoining to the original string), maps
every purely-digit run of length at most 10 to its left-padding with
`'0'` to width 10 (longer digit runs and non-digit runs unchanged),
rejoins the runs in original order and trims surrounding whitespace;
every non-string input is returned unchanged. -/
theorem c8_sortable_numeric_suffix :
    (∀ s : String, sortableNumericSuffix (.vstr s)
        = .vstr (jsTrim (String.mk (((splitRuns Char.isDigit s.data).map padRun).flatten))))
    ∧ (∀ s : String, (splitRuns Char.isDigit s.data).flatten = s.data)
    ∧ (∀ s : String, ∀ r ∈ splitRuns Char.isDigit s.data,
        r ≠ [] ∧ ((∀ c ∈ r, c.isDigit = true) ∨ (∀ c ∈ r, c.isDigit = false)))
    ∧ (∀ s : String,
        List.Chain' (fun r1 r2 => r1.all Char.isDigit ≠ r2.all Char.isDigit)
          (splitRuns Char.isDigit s.data))
    ∧ (∀ run : List Char, run ≠ [] → (∀ c ∈ run, c.isDigit = true) →
        (run.length ≤ 10 → padRun run = List.replicate (10 - run.length) '0' ++ run)
        ∧ (10 < run.length → padRun run = run))
    ∧ (∀ run : List Char, ¬ (run ≠ [] ∧ run.all Char.isDigit = true) → padRun run = run)
    ∧ (∀ v : Value, (∀ s, v ≠ .vstr s) → sortableNumericSuffix v = v) := by
  refine ⟨fun s => rfl, fun s => splitRuns_flatten Char.isDigit s.data, ?_, ?_, ?_, ?_, ?_⟩
  · intro s r hr
    cases hs : s.data with
    | nil => rw [hs] at hr; exact absurd hr (by simp [splitRuns])
    | cons c rest =>
      rw [hs] at hr
      have hr' : r ∈ splitRunsGo Char.isDigit c [c] rest := hr
      constructor
      · exact splitRunsGo_ne_nil Char.isDigit rest c [c] (by simp) r hr'
      · rcases splitRunsGo_homog Char.isDigit rest c [c] (by simp) r hr' with ⟨b, hb⟩
        cases b
        · exact Or.inr hb
        · exact Or.inl hb
  · intro s
    cases hs : s.data with
    | nil => simp [splitRuns]
    | cons c rest => exact splitRunsGo_chain Char.isDigit rest c [c] (by simp) (by simp)
  · intro run hne hdig
    have hcond : run ≠ [] ∧ run.all Char.isDigit = true :=
      ⟨hne, List.all_eq_true.mpr hdig⟩
    constructor
    · intro hlen
      show padRun run = _
      rw [padRun, if_pos hcond]
      show ((if 10 ≤ (String.mk run).length then String.mk run
             else String.mk (List.replicate (10 - (String.mk run).length) '0') ++ String.mk run)).data
          = List.replicate (10 - run.length) '0' ++ run
      have hlen' : (String.mk run).length = run.length := rfl
      by_cases h10 : 10 ≤ (String.mk run).length
      · rw [if_pos h10]
        have : run.length = 10 := by rw [hlen'] at h10; omega
        rw [this]
        simp
      · rw [if_neg h10]
        rw [show (String.mk (List.replicate (10 - (String.mk run).length) '0')
              ++ String.mk run).data
            = List.replicate (10 - run.length) '0' ++ run from rfl]
    · intro hlen
      rw [padRun, if_pos hcond]
      show ((if 10 ≤ (String.mk run).length then String.mk run
             else String.mk (List.replicate (10 - (String.mk run).length) '0') ++ String.mk run)).data
          = run
      rw [if_pos (by show 10 ≤ run.length; omega)]
  · intro run hn
    rw [padRun, if_neg hn]
  · intro v hv
    cases v with
    | vstr s => exact absurd rfl (hv s)
    | vundefined => rfl
    | vnull => rfl
    | vbool b => rfl
    | vnum n => rfl
    | varr l => rfl
    | vobj fs => rfl
    | vdate t => rfl
    | vregexp s => rfl
    | verror m => rfl

/-- Witness for C8: the digit run `"42"` pads to width 10; the
non-string input `7` passes through. -/
theorem c8_sortable_numeric_suffix_witness :
    padRun ['4', '2'] = List.replicate (10 - 2) '0' ++ ['4', '2']
    ∧ sortableNumericSuffix (.vnum (.fin 7)) = .vnum (.fin 7) :=
  ⟨((c8_sortable_numeric_suffix.2.2.2.2.1 ['4', '2'] (by decide)
      (by decide)).1 (by decide)),
   c8_sortable_numeric_suffix.2.2.2.2.2.2 (.vnum (.fin 7)) (fun s h => Value.noConfusion h)⟩

end SortTs
